import Mathlib

/-!
# jrpc2: line framing (`channel/line.go`) and error codes (`code/code.go`)

A shallow embedding of the two leaf packages of the repository, and of the
validation of handler functions that `handler/internal_test.go` tests.

* `channel`: the `line` channel.  `Send` is the loop of `line.go` with its
  output array, write index and `multi` flag; `Recv` is the loop around
  `bufio.Reader.ReadSlice`.  The loops of `Recv` and `ReadSlice` are `for`
  loops without a bound in the source, so they take a fuel argument here and
  return `none` when the fuel runs out.
* `code`: `Code`, the description registry `stdError`, `Register`,
  `codeError`, `Code.Err` and `FromError`, over a model of Go error values
  with their wrap chain.
* `handler`: `newHandler`, whose source is missing, from the specification,
  and the table of its test `TestNew`.
-/

namespace channel

/-! ## The byte-stream layer (Go standard library: `io`, `bufio`) -/

/-- Error values of the byte-stream layer. -/
inductive IOError where
  /-- The value `io.EOF`. -/
  | EOF
  /-- The value `bufio.ErrBufferFull`. -/
  | ErrBufferFull
  /-- The value `io.ErrNoProgress`. -/
  | ErrNoProgress
  /-- Any other transport error, told apart by a tag. -/
  | transport (tag : Nat)
  deriving DecidableEq, Repr

/-- An `io.WriteCloser` seen from outside: the argument of every `Write`
call made so far (oldest first), and the error its `Write` reports
(`none` for success). -/
structure WriteCloser where
  calls : List (List UInt8)
  failure : Option IOError
  deriving DecidableEq, Repr

/-- One `Write(p)` call: it is recorded, and the writer's error is reported
together with the byte count. -/
def WriteCloser.Write (w : WriteCloser) (p : List UInt8) :
    (Nat × Option IOError) × WriteCloser :=
  ((if w.failure.isSome then 0 else p.length, w.failure),
   { w with calls := w.calls ++ [p] })

/-- An `io.Reader` over a finite byte stream.  `data` are the bytes not yet
handed out.  `sched` lists how many bytes the coming `Read` calls are willing
to hand out at most (short reads; an entry `0` counts as `1`); once it is
used up every `Read` fills the whole slice it is given. -/
structure Source where
  data : List UInt8
  sched : List Nat
  deriving DecidableEq, Repr

/-- One `Read(p)` call with `len(p) = n`: at the end of the stream `(0, io.EOF)`,
otherwise between one and `n` bytes and a nil error. -/
def Source.Read (rd : Source) (n : Nat) : List UInt8 × Option IOError × Source :=
  match rd.data with
  | [] => ([], some IOError.EOF, rd)
  | _ :: _ =>
    let k := match rd.sched with
      | [] => n
      | s :: _ => min n (max 1 s)
    (rd.data.take k, none, { data := rd.data.drop k, sched := rd.sched.tail })

/-- The function `bytes.IndexByte`: position of the first `c` in `l`. -/
def IndexByte : List UInt8 → UInt8 → Option Nat
  | [], _ => none
  | x :: xs, c => if x = c then some 0 else (IndexByte xs c).map (· + 1)

/-- A `bufio.Reader`.  `size` is `len(b.buf)`, `unread` is the window
`b.buf[b.r:b.w]` of buffered bytes not yet returned, `rd` the reader it
wraps and `err` the pending read error `b.err`. -/
structure Reader where
  size : Nat
  unread : List UInt8
  rd : Source
  err : Option IOError
  deriving DecidableEq, Repr

/-- The function `bufio.NewReaderSize`: the buffer has at least
`minReadBufferSize = 16` bytes. -/
def NewReaderSize (rd : Source) (size : Nat) : Reader :=
  { size := max size 16, unread := [], rd := rd, err := none }

/-- The function `bufio.NewReader`, with `defaultBufSize = 4096`. -/
def NewReader (rd : Source) : Reader := NewReaderSize rd 4096

/-- The read loop of `(*bufio.Reader).fill`, which tries
`maxConsecutiveEmptyReads` times to read into the free part `b.buf[b.w:]`. -/
def Reader.fillLoop : Nat → Reader → Reader
  | 0, b => { b with err := some IOError.ErrNoProgress }
  | i + 1, b =>
    match b.rd.Read (b.size - b.unread.length) with
    | (p, e, rd) =>
      let b1 : Reader := { b with unread := b.unread ++ p, rd := rd }
      match e with
      | some e => { b1 with err := some e }
      | none => if p.length > 0 then b1 else Reader.fillLoop i b1

/-- The method `(*bufio.Reader).fill`, `maxConsecutiveEmptyReads = 100`. -/
def Reader.fill (b : Reader) : Reader := b.fillLoop 100

/-- The loop of `(*bufio.Reader).ReadSlice(delim)`; `s` is its search start
index.  Result: the slice, the error, the reader afterwards; `none` when the
fuel is used up. -/
def Reader.ReadSliceLoop (delim : UInt8) :
    Nat → Reader → Nat → Option (List UInt8 × Option IOError × Reader)
  | 0, _, _ => none
  | fuel + 1, b, s =>
    match IndexByte (b.unread.drop s) delim with
    | some i =>
      -- line = b.buf[b.r : b.r+i+1]; b.r += i + 1
      some (b.unread.take (s + i + 1), none, { b with unread := b.unread.drop (s + i + 1) })
    | none =>
      match b.err with
      | some e =>
        -- pending error: line = b.buf[b.r:b.w]; b.r = b.w; err = b.readErr()
        some (b.unread, some e, { b with unread := [], err := none })
      | none =>
        if b.unread.length ≥ b.size then
          -- buffer full: b.r = b.w; line = b.buf
          some (b.unread, some IOError.ErrBufferFull, { b with unread := [] })
        else
          Reader.ReadSliceLoop delim fuel b.fill b.unread.length

/-- The method `(*bufio.Reader).ReadSlice(delim)`. -/
def Reader.ReadSlice (b : Reader) (fuel : Nat) (delim : UInt8) :
    Option (List UInt8 × Option IOError × Reader) :=
  Reader.ReadSliceLoop delim fuel b 0

/-! ## `channel/line.go` -/

/-- The type `line`: the writer `wc` and the buffered reader `buf`. -/
structure line where
  wc : WriteCloser
  buf : Reader
  deriving DecidableEq, Repr

/-- The constructor `Line(r, wc)`. -/
def Line (r : Source) (wc : WriteCloser) : line :=
  { wc := wc, buf := NewReader r }

/-- The local variables of the loop of `Send`. -/
structure SendState where
  out : List UInt8
  j : Nat
  multi : Bool
  deriving DecidableEq, Repr

/-- One iteration of the `for _, b := range msg` loop of `Send`.
`none` is the run-time panic of an index out of range at `out[j] = b`. -/
def sendStep (st : SendState) (b : UInt8) : Option SendState :=
  if st.multi then
    let multi := (b &&& 0xC0 == 0x80)
    if st.j < st.out.length then
      some { out := st.out.set st.j b, j := st.j + 1, multi := multi }
    else none
  else if b = 10 then
    some st
  else
    if st.j < st.out.length then
      some { out := st.out.set st.j b, j := st.j + 1, multi := st.multi }
    else none

/-- The loop of `Send` run over `msg` from the state `st`. -/
def sendLoop : SendState → List UInt8 → Option SendState
  | st, [] => some st
  | st, b :: rest =>
    match sendStep st b with
    | none => none
    | some st1 => sendLoop st1 rest

/-- The state `Send` enters its loop with: `out := make([]byte, len(msg)+1)`,
`j := 0`, `multi := false`. -/
def sendInit (msg : List UInt8) : SendState :=
  { out := List.replicate (msg.length + 1) 0, j := 0, multi := false }

/-- The method `line.Send`.  `none` is a run-time panic (index or slice bound
out of range); otherwise the returned error and the channel afterwards. -/
def line.Send (c : line) (msg : List UInt8) : Option (Option IOError × line) :=
  match sendLoop (sendInit msg) msg with
  | none => none
  | some st =>
    if st.j < st.out.length then
      let out := st.out.set st.j 10
      if st.j + 1 ≤ out.length then
        match c.wc.Write (out.take (st.j + 1)) with
        | ((_, err), wc) => some (err, { c with wc := wc })
      else none
    else none

/-- The loop of `line.Recv`; `buf` is its `bytes.Buffer`, `inner` the fuel
handed to every `ReadSlice`.  Result: the returned bytes and error, and the
channel afterwards; `none` when fuel is used up. -/
def line.RecvLoop (inner : Nat) :
    Nat → line → List UInt8 → Option ((List UInt8 × Option IOError) × line)
  | 0, _, _ => none
  | fuel + 1, c, buf =>
    match c.buf.ReadSlice inner 10 with
    | none => none
    | some (chunk, err, rb) =>
      let c1 : line := { c with buf := rb }
      let buf1 := buf ++ chunk
      if err = some IOError.ErrBufferFull then
        line.RecvLoop inner fuel c1 buf1
      else
        let n : Int := (buf1.length : Int) - 1
        if n ≥ 0 then some ((buf1.take n.toNat, err), c1)
        else some (([], err), c1)

/-- The method `line.Recv`. -/
def line.Recv (c : line) (fuel : Nat) : Option ((List UInt8 × Option IOError) × line) :=
  line.RecvLoop fuel fuel c []

/-- The bytes a reader has still to deliver: buffered ones, then the source's. -/
def Reader.stream (b : Reader) : List UInt8 := b.unread ++ b.rd.data

/-- A channel whose reader has a buffer of `size` bytes and has not yet read
anything from the byte stream `data`, delivered along `sched`. -/
def lineOver (size : Nat) (data : List UInt8) (sched : List Nat) (wc : WriteCloser) : line :=
  { wc := wc, buf := { size := size, unread := [], rd := { data := data, sched := sched }, err := none } }

/-- The reference frame of a message: every LF removed, one LF appended. -/
def stripLF (msg : List UInt8) : List UInt8 := msg.filter (· ≠ 10)

/-- `Send` called on each message of `msgs` in turn, on one channel: the
errors returned, in order, and the channel afterwards; `none` when one of the
calls panics. -/
def sendAll : line → List (List UInt8) → Option (List (Option IOError) × line)
  | c, [] => some ([], c)
  | c, m :: ms =>
    match c.Send m with
    | none => none
    | some (err, c1) =>
      match sendAll c1 ms with
      | none => none
      | some (errs, c2) => some (err :: errs, c2)

/-- `Recv` called `n` times in a row on one channel: the results in order and
the channel afterwards; `none` when one of the calls runs out of fuel. -/
def recvMany (fuel : Nat) : Nat → line → Option (List (List UInt8 × Option IOError) × line)
  | 0, c => some ([], c)
  | n + 1, c =>
    match c.Recv fuel with
    | none => none
    | some (r, c1) =>
      match recvMany fuel n c1 with
      | none => none
      | some (rs, c2) => some (r :: rs, c2)

/-- The prefix of a stream up to and including its first LF, or the whole
stream when it has no LF. -/
def linePrefix : List UInt8 → List UInt8
  | [] => []
  | x :: xs => if x = 10 then [x] else x :: linePrefix xs

end channel

namespace code

/-! ## `code/code.go` -/

/-- The type `Code`, a named `int32`. -/
structure Code where
  val : Int
  deriving DecidableEq, Repr

def ParseError : Code := ⟨-32700⟩
def InvalidRequest : Code := ⟨-32600⟩
def MethodNotFound : Code := ⟨-32601⟩
def InvalidParams : Code := ⟨-32602⟩
def InternalError : Code := ⟨-32603⟩
def NoError : Code := ⟨-32099⟩
def SystemError : Code := ⟨-32098⟩
def Cancelled : Code := ⟨-32097⟩
def DeadlineExceeded : Code := ⟨-32096⟩

/-- A value of type `map[Code]string`: the description of each key present. -/
structure Registry where
  lookup : Code → Option String

/-- The empty map. -/
def Registry.empty : Registry := ⟨fun _ => none⟩

/-- The assignment `m[k] = v`. -/
def Registry.set (m : Registry) (k : Code) (v : String) : Registry :=
  ⟨fun c => if c = k then some v else m.lookup c⟩

/-- The package variable `stdError` as its initialiser leaves it. -/
def stdError : Registry :=
  ((((((((Registry.empty.set ParseError "parse error").set
    InvalidRequest "invalid request").set
    MethodNotFound "method not found").set
    InvalidParams "invalid parameters").set
    InternalError "internal error").set
    NoError "no error (success)").set
    SystemError "system error").set
    Cancelled "request cancelled").set
    DeadlineExceeded "deadline exceeded"

/-- The verb `%d` of `fmt.Sprintf` on an integer: its decimal digits, after a
minus sign when it is negative. -/
def formatDecimal (n : Int) : String :=
  if n < 0 then "-" ++ Nat.repr n.natAbs else Nat.repr n.natAbs

/-- The method `Code.String`, reading the map `reg` that `stdError` holds. -/
def Code.String (reg : Registry) (c : Code) : String :=
  match reg.lookup c with
  | some s => s
  | none => "error code " ++ formatDecimal c.val

/-- The type `codeError`, a named `Code`. -/
structure codeError where
  code : Code
  deriving DecidableEq, Repr

/-- Go error values (non-nil).  An `error` that may be nil is an
`Option error`.

* `code c`: a value of type `codeError`;
* `Canceled`, `DeadlineExceeded`: the two variables of package `context`;
* `leaf` and `wrap`: values of any other error type, `wrap` for those with an
  `Unwrap() error` method giving `inner`.  `id` is the identity that `==`
  compares, `msg` the text of `Error()`, and `errCode` is `some c` exactly
  when the type has an `ErrCode() Code` method, which returns `c`.

Error types outside this package with `Is` or `As` methods of their own, or
with an `Unwrap() []error` method, are not part of the model. -/
inductive error where
  | code (c : codeError)
  | Canceled
  | DeadlineExceeded
  | leaf (id : Nat) (msg : String) (errCode : Option Code)
  | wrap (id : Nat) (msg : String) (errCode : Option Code) (inner : error)
  deriving DecidableEq, Repr

/-- The method `codeError.Error`. -/
def codeError.Error (reg : Registry) (c : codeError) : String := Code.String reg c.code

/-- The method `codeError.ErrCode`. -/
def codeError.ErrCode (c : codeError) : Code := c.code

/-- The type assertion `v, ok := err.(ErrCoder)` on a non-nil error, followed
by `v.ErrCode()`: `none` when the assertion fails. -/
def error.ErrCoder : error → Option Code
  | error.code c => some c.ErrCode
  | error.leaf _ _ ec => ec
  | error.wrap _ _ ec _ => ec
  | _ => none

/-- The method `Error()` of an error value. -/
def error.Error (reg : Registry) : error → String
  | error.code c => c.Error reg
  | error.Canceled => "context canceled"
  | error.DeadlineExceeded => "context deadline exceeded"
  | error.leaf _ msg _ => msg
  | error.wrap _ msg _ _ => msg

/-- The method `codeError.Is`: `v, ok := err.(ErrCoder); ok && v.ErrCode() == Code(c)`.
The assertion fails on a nil `err`. -/
def codeError.Is (c : codeError) (err : Option error) : Bool :=
  match err with
  | none => false
  | some e =>
    match e.ErrCoder with
    | some v => v == c.code
    | none => false

/-- The method `Code.Err`. -/
def Code.Err (c : Code) : Option error :=
  if c = NoError then none else some (error.code ⟨c⟩)

/-- The function `errors.Unwrap`. -/
def error.Unwrap : error → Option error
  | error.wrap _ _ _ inner => some inner
  | _ => none

/-- The test `x, ok := err.(interface{ Is(error) bool }); ok && x.Is(target)`
inside `errors.Is`. -/
def error.methodIs (e target : error) : Bool :=
  match e with
  | error.code c => c.Is (some target)
  | _ => false

/-- The loop of `errors.Is` down the wrap chain of a non-nil error, for a
non-nil comparable target. -/
def errorsIsLoop (target : error) : error → Bool
  | error.wrap id msg ec inner =>
    (error.wrap id msg ec inner == target) ||
      (error.wrap id msg ec inner).methodIs target || errorsIsLoop target inner
  | e => (e == target) || e.methodIs target

/-- The function `errors.Is`. -/
def errorsIs (err target : Option error) : Bool :=
  match err, target with
  | some e, some t => errorsIsLoop t e
  | none, none => true
  | _, _ => false

/-- The function `errors.As` with a target of type `*ErrCoder`: the first
error of the chain that is an `ErrCoder` is stored in the target. -/
def errorsAsErrCoder : error → Option error
  | error.wrap id msg ec inner =>
    if (error.wrap id msg ec inner).ErrCoder.isSome then some (error.wrap id msg ec inner)
    else errorsAsErrCoder inner
  | e => if e.ErrCoder.isSome then some e else none

/-- The function `FromError`. -/
def FromError (err : Option error) : Code :=
  match err with
  | none => NoError
  | some e =>
    match (errorsAsErrCoder e).bind error.ErrCoder with
    | some c => c
    | none =>
      if errorsIs (some e) (some error.Canceled) then Cancelled
      else if errorsIs (some e) (some error.DeadlineExceeded) then DeadlineExceeded
      else SystemError

/-- The wrap chain of an error: the error, what it wraps, and so on. -/
def error.chain : error → List error
  | error.wrap id msg ec inner => error.wrap id msg ec inner :: error.chain inner
  | e => [e]

/-- The classifier as the specification words it: `NoError` for nil; else
the code reported by the outermost `ErrCoder` of the wrap chain if there is
one; else `Cancelled` if the chain holds `context.Canceled`; else
`DeadlineExceeded` if it holds `context.DeadlineExceeded`; else
`SystemError`. -/
def classify (err : Option error) : Code :=
  match err with
  | none => NoError
  | some e =>
    match (e.chain.filterMap error.ErrCoder).head? with
    | some c => c
    | none =>
      if error.Canceled ∈ e.chain then Cancelled
      else if error.DeadlineExceeded ∈ e.chain then DeadlineExceeded
      else SystemError

/-- The value a failed `Register` panics with: the code and the description
it is already registered for (the two arguments of the panic text). -/
structure RegisterPanic where
  code : Code
  registered : String
  deriving DecidableEq, Repr

/-- The function `Register`, on the map `reg` that `stdError` holds: a
panic, or the returned code and the map afterwards. -/
def Register (reg : Registry) (value : Int) (message : String) :
    Except RegisterPanic (Code × Registry) :=
  let code : Code := ⟨value⟩
  match reg.lookup code with
  | some s =>
    if s ≠ message then Except.error ⟨code, s⟩
    else Except.ok (code, reg.set code message)
  | none => Except.ok (code, reg.set code message)

/-- The map that `stdError` holds after the call `Register(value, message)`:
the one the call has written when it returns, and the one from before the
call when it panics, since the panic comes before the assignment. -/
def registerStep (reg : Registry) (call : Int × String) : Registry :=
  match Register reg call.1 call.2 with
  | Except.ok (_, reg1) => reg1
  | Except.error _ => reg

/-- The map after a sequence of `Register` calls, made in order. -/
def registerAll (reg : Registry) (calls : List (Int × String)) : Registry :=
  calls.foldl registerStep reg

/-- The nine constants of the `const` block of `code.go`. -/
def predefined : List Code :=
  [ParseError, InvalidRequest, MethodNotFound, InvalidParams, InternalError,
   NoError, SystemError, Cancelled, DeadlineExceeded]

end code

namespace handler

/-! ## `handler`: the validation of handler functions

The source of `newHandler` is not among the sources at hand; its test
`TestNew` (`handler/internal_test.go`) is.  The function is modelled from the
specification, the test table is transcribed from the test. -/

/-- Go types, as far as the validation of a handler function tells them
apart.  The types of the model are those that the specification and the test
speak of; types that the wire payload cannot carry are not part of the
model. -/
inductive GoType where
  /-- The type `context.Context`. -/
  | Context
  /-- The type `error`. -/
  | Error
  /-- The type `*jrpc2.Request`. -/
  | Request
  /-- Any other type (a struct, a slice, a primitive, `interface{}`), by its
  name. -/
  | data (name : String)
  deriving DecidableEq, Repr

/-- The type of a Go function: parameter types, whether the last parameter
is variadic (`...U`, listed here as the slice `[]U`), result types. -/
structure FuncType where
  params : List GoType
  variadic : Bool
  results : List GoType
  deriving DecidableEq, Repr

/-- A value of type `interface{}` handed to `newHandler`. -/
inductive Value where
  /-- The nil interface value. -/
  | nil
  /-- A value that is not a function, by the name of its type. -/
  | other (typeName : String)
  /-- A function value, by its type. -/
  | func (t : FuncType)
  deriving DecidableEq, Repr

/-- Why a value is turned away. -/
inductive Rejection where
  | nilValue
  | notAFunction
  | parameterCount
  | resultCount
  | firstNotContext
  | errorNotLast
  deriving DecidableEq, Repr

/-- The adapted form of a handler function: the shape of its second
argument, if it takes one, and whether it returns a value, an error, or
both. -/
structure HandlerSpec where
  argument : Option GoType
  variadic : Bool
  returnsValue : Bool
  returnsError : Bool
  deriving DecidableEq, Repr

/-- Modelled from the spec: the function `newHandler` of package `handler`,
whose source is missing (only its test `TestNew` is present).  The
specification accepts functions with one or two parameters, the first being
the context, and one or two results: an error alone, a value alone, or a
value followed by an error.  It rejects: zero parameters; more than two
parameters; a first parameter that is not the context; more than two results;
zero results; with two results, an error that is not in the last place.  The
test adds that nil and values that are not functions are rejected, and that a
second parameter of a plain type such as `int` is accepted.  The checks come
in the order of the reasons that the test's comments give.  The last ground
of the specification, shapes that the wire payload cannot carry, concerns
types outside `GoType` and has no check here. -/
def newHandler (v : Value) : Except Rejection HandlerSpec :=
  match v with
  | Value.nil => Except.error Rejection.nilValue
  | Value.other _ => Except.error Rejection.notAFunction
  | Value.func t =>
    if t.params.length = 0 ∨ t.params.length > 2 then
      Except.error Rejection.parameterCount
    else if t.results.length < 1 ∨ t.results.length > 2 then
      Except.error Rejection.resultCount
    else if t.params.head? ≠ some GoType.Context then
      Except.error Rejection.firstNotContext
    else if t.results.length = 2 ∧
        (t.results.get? 1 ≠ some GoType.Error ∨ t.results.get? 0 = some GoType.Error) then
      Except.error Rejection.errorNotLast
    else
      Except.ok
        { argument := t.params.get? 1
          variadic := t.variadic
          returnsValue := t.results.head? ≠ some GoType.Error
          returnsError := t.results.getLast? = some GoType.Error }

/-- Whether `newHandler` returns a handler and no error. -/
def accepts (v : Value) : Bool :=
  match newHandler v with
  | Except.ok _ => true
  | Except.error _ => false

/-- The condition on the shape: a function with one or two parameters, the
first being `context.Context`, and one or two results where, if there are
two, the second and not the first is `error`. -/
def shapeOK (v : Value) : Bool :=
  match v with
  | Value.func t =>
    (t.params.length == 1 || t.params.length == 2) &&
    (t.params.head? == some GoType.Context) &&
    (t.results.length == 1 || t.results.length == 2) &&
    (t.results.length != 2 ||
      (t.results.get? 1 == some GoType.Error && t.results.get? 0 != some GoType.Error))
  | _ => false

def tInt : GoType := GoType.data "int"
def tBool : GoType := GoType.data "bool"
def tByte : GoType := GoType.data "byte"
def tString : GoType := GoType.data "string"
def tFloat64 : GoType := GoType.data "float64"
def tAny : GoType := GoType.data "interface{}"
def tInts : GoType := GoType.data "[]int"
def tBools : GoType := GoType.data "[]bool"
def tStrings : GoType := GoType.data "[]string"

/-- The table of `TestNew`: each value with its `bad` flag. -/
def TestNew : List (Value × Bool) :=
  [ (Value.nil, true),
    (Value.other "string", true),
    (Value.func ⟨[GoType.Context], false, [GoType.Error]⟩, false),
    (Value.func ⟨[GoType.Context, GoType.Request], false, [tAny, GoType.Error]⟩, false),
    (Value.func ⟨[GoType.Context], false, [tInt, GoType.Error]⟩, false),
    (Value.func ⟨[GoType.Context, tInts], false, [GoType.Error]⟩, false),
    (Value.func ⟨[GoType.Context, tBools], false, [tFloat64, GoType.Error]⟩, false),
    (Value.func ⟨[GoType.Context, tInts], true, [GoType.Error]⟩, false),
    (Value.func ⟨[GoType.Context, tInts], true, [tBool]⟩, false),
    (Value.func ⟨[GoType.Context, tStrings], true, [tBool, GoType.Error]⟩, false),
    (Value.func ⟨[GoType.Context, GoType.Request], false, [GoType.Error]⟩, false),
    (Value.func ⟨[GoType.Context, GoType.Request], false, [tFloat64]⟩, false),
    (Value.func ⟨[GoType.Context, GoType.Request], false, [tByte, GoType.Error]⟩, false),
    (Value.func ⟨[GoType.Context], false, [tBool]⟩, false),
    (Value.func ⟨[GoType.Context, tInt], false, [tBool]⟩, false),
    (Value.func ⟨[], false, [GoType.Error]⟩, true),
    (Value.func ⟨[tInt, tInt, tInt], false, [tBool]⟩, true),
    (Value.func ⟨[tByte], false, []⟩, true),
    (Value.func ⟨[tByte], false, [tInt, tBool, GoType.Error]⟩, true),
    (Value.func ⟨[tString], false, [GoType.Error]⟩, true),
    (Value.func ⟨[tString, tString], false, [GoType.Error]⟩, true),
    (Value.func ⟨[GoType.Context], false, [tInt, tBool]⟩, true),
    (Value.func ⟨[GoType.Context], false, [GoType.Error, tFloat64]⟩, true) ]

end handler

/-! # Theorems -/

namespace channel

theorem take_succ_set {α : Type} (l : List α) (j : Nat) (b : α) (h : j < l.length) :
    (l.set j b).take (j + 1) = l.take j ++ [b] := by
  induction l generalizing j with
  | nil => simp at h
  | cons x xs ih =>
    cases j with
    | zero => simp
    | succ k =>
      simp only [List.length_cons, Nat.add_lt_add_iff_right] at h
      simp [ih k h]

theorem stripLF_cons_lf (rest : List UInt8) : stripLF (10 :: rest) = stripLF rest := by
  simp [stripLF]

theorem stripLF_cons_other (b : UInt8) (rest : List UInt8) (h : b ≠ 10) :
    stripLF (b :: rest) = b :: stripLF rest := by
  simp [stripLF, h]

theorem stripLF_length_le (msg : List UInt8) : (stripLF msg).length ≤ msg.length := by
  simpa [stripLF] using List.length_filter_le _ msg

/-- Invariant of the loop of `Send`: from a state with `multi = false` and room
for the bytes still to come, the loop ends with `multi = false`, the array as
long as before, and the kept bytes appended to the part written so far. -/
theorem sendLoop_spec (rest : List UInt8) (st : SendState)
    (hm : st.multi = false) (hroom : st.j + rest.length ≤ st.out.length) :
    ∃ st1, sendLoop st rest = some st1 ∧ st1.multi = false ∧
      st1.out.length = st.out.length ∧
      st1.j = st.j + (stripLF rest).length ∧
      st1.out.take st1.j = st.out.take st.j ++ stripLF rest := by
  induction rest generalizing st with
  | nil => exact ⟨st, rfl, hm, rfl, by simp [stripLF], by simp [stripLF]⟩
  | cons b rest ih =>
    simp only [List.length_cons] at hroom
    by_cases hb : b = 10
    · subst hb
      have hstep : sendStep st 10 = some st := by simp [sendStep, hm]
      obtain ⟨st1, h1, h2, h3, h4, h5⟩ := ih st hm (by omega)
      exact ⟨st1, by simp [sendLoop, hstep, h1], h2, h3,
        by rw [stripLF_cons_lf]; exact h4, by rw [stripLF_cons_lf]; exact h5⟩
    · have hj : st.j < st.out.length := by omega
      have hstep : sendStep st b =
          some { out := st.out.set st.j b, j := st.j + 1, multi := st.multi } := by
        simp [sendStep, hm, hb, hj]
      obtain ⟨st1, h1, h2, h3, h4, h5⟩ :=
        ih { out := st.out.set st.j b, j := st.j + 1, multi := st.multi } hm
          (by simp only [List.length_set]; omega)
      refine ⟨st1, by simp [sendLoop, hstep, h1], h2, by simpa using h3, ?_, ?_⟩
      · rw [stripLF_cons_other b rest hb, h4]; simp only [List.length_cons]; omega
      · rw [h5, stripLF_cons_other b rest hb]
        simp only []
        rw [take_succ_set _ _ _ hj]
        simp

/-- The whole of `Send`: one `Write` call, of the message without its LF
bytes followed by one LF, whose error is handed back. -/
theorem Send_eq (c : line) (msg : List UInt8) :
    c.Send msg = some (c.wc.failure,
      { c with wc := { c.wc with calls := c.wc.calls ++ [stripLF msg ++ [10]] } }) := by
  obtain ⟨st, h1, _, h3, h4, h5⟩ :=
    sendLoop_spec msg (sendInit msg) rfl (by simp [sendInit])
  have hlen : st.out.length = msg.length + 1 := by simpa [sendInit] using h3
  have hj : st.j < st.out.length := by
    have := stripLF_length_le msg
    simp only [sendInit, Nat.zero_add] at h4
    omega
  have hj2 : st.j + 1 ≤ (st.out.set st.j 10).length := by
    simp only [List.length_set]; omega
  have htake : (st.out.set st.j 10).take (st.j + 1) = stripLF msg ++ [10] := by
    rw [take_succ_set _ _ _ hj, h5]; simp [sendInit]
  simp only [line.Send, h1, hj, if_true, hj2, htake, WriteCloser.Write]

/-- C1: for every message, `Send` makes exactly one `Write` call on the
writer, its argument is the message without its LF bytes (in their order)
followed by one LF, the error of that `Write` is returned as it is, and the
`multi` flag is false after every iteration of the loop, that is, after every
prefix of the message. -/
theorem send_writes_stripped_frame (c : line) (msg : List UInt8) :
    c.Send msg = some (c.wc.failure,
      { c with wc := { c.wc with calls := c.wc.calls ++ [stripLF msg ++ [10]] } }) ∧
    ∀ p, p <+: msg → ∃ st, sendLoop (sendInit msg) p = some st ∧ st.multi = false := by
  refine ⟨Send_eq c msg, ?_⟩
  intro p hp
  obtain ⟨st, h1, h2, _⟩ := sendLoop_spec p (sendInit msg) rfl (by
    have := hp.length_le
    simp only [sendInit, List.length_replicate]; omega)
  exact ⟨st, h1, h2⟩


/-! ### `IndexByte` -/

theorem IndexByte_eq_none {l : List UInt8} {c : UInt8} :
    IndexByte l c = none ↔ c ∉ l := by
  induction l with
  | nil => simp [IndexByte]
  | cons x xs ih =>
    by_cases hx : x = c
    · simp [IndexByte, hx]
    · have hx2 : ¬ c = x := fun h => hx h.symm
      simp [IndexByte, hx, hx2, ih]

theorem IndexByte_eq_some {l : List UInt8} {c : UInt8} {i : Nat}
    (h : IndexByte l c = some i) :
    c ∉ l.take i ∧ l.take (i + 1) = l.take i ++ [c] ∧ i < l.length := by
  induction l generalizing i with
  | nil => simp [IndexByte] at h
  | cons x xs ih =>
    by_cases hx : x = c
    · simp only [IndexByte, hx, if_true, Option.some.injEq] at h
      subst h
      simp [hx]
    · simp only [IndexByte, hx, if_false, Option.map_eq_some'] at h
      obtain ⟨k, hk, rfl⟩ := h
      obtain ⟨h1, h2, h3⟩ := ih hk
      have hx2 : ¬ c = x := fun h => hx h.symm
      refine ⟨?_, ?_, ?_⟩
      · simp [hx2, h1]
      · simp [h2]
      · simp [h3]

/-- A hit of the search that starts at `s`, when nothing before `s` is the
byte, is the first occurrence in the whole list. -/
theorem IndexByte_drop {l : List UInt8} {c : UInt8} {s i : Nat}
    (hs : c ∉ l.take s) (h : IndexByte (l.drop s) c = some i) :
    c ∉ l.take (s + i) ∧ l.take (s + i + 1) = l.take (s + i) ++ [c] := by
  obtain ⟨h1, h2, h3⟩ := IndexByte_eq_some h
  have hsl : s ≤ l.length := by
    by_contra hc
    have : l.drop s = [] := List.drop_eq_nil_of_le (by omega)
    simp [this] at h3
  have e1 : l.take (s + i) = l.take s ++ (l.drop s).take i := by
    rw [List.take_add]
  have e2 : l.take (s + i + 1) = l.take s ++ (l.drop s).take (i + 1) := by
    rw [Nat.add_assoc, List.take_add]
  refine ⟨?_, ?_⟩
  · rw [e1]; simp [hs, h1]
  · rw [e2, e1, h2]; simp

theorem not_mem_of_drop {l : List UInt8} {c : UInt8} {s : Nat}
    (hs : c ∉ l.take s) (h : c ∉ l.drop s) : c ∉ l := by
  intro hc
  rw [← List.take_append_drop s l] at hc
  rcases List.mem_append.1 hc with h1 | h1
  · exact hs h1
  · exact h h1

/-! ### `fill` -/

theorem fillLoop_at_end (i : Nat) (b : Reader) (hd : b.rd.data = []) :
    b.fillLoop (i + 1) = { b with err := some IOError.EOF } := by
  cases b with
  | mk size unread rd err =>
    cases rd with
    | mk data sched =>
      simp only at hd
      subst hd
      simp [Reader.fillLoop, Source.Read]

theorem fillLoop_progress (i : Nat) (b : Reader) (hd : b.rd.data ≠ [])
    (hroom : b.unread.length < b.size) :
    ∃ k, 0 < k ∧ b.fillLoop (i + 1) =
      { b with
        unread := b.unread ++ b.rd.data.take k
        rd := { data := b.rd.data.drop k, sched := b.rd.sched.tail } } := by
  cases b with
  | mk size unread rd err =>
    cases rd with
    | mk data sched =>
      simp only at hd hroom
      cases data with
      | nil => exact absurd rfl hd
      | cons x xs =>
        cases sched with
        | nil =>
          refine ⟨size - unread.length, by omega, ?_⟩
          have hpos : 0 < size - unread.length := by omega
          simp [Reader.fillLoop, Source.Read, hpos]
        | cons s ss =>
          refine ⟨min (size - unread.length) (max 1 s), by omega, ?_⟩
          have hpos : 0 < min (size - unread.length) (max 1 s) := by omega
          have hne : ¬ (min (size - unread.length) (max 1 s) = 0) := by omega
          simp only [Reader.fillLoop, Source.Read, List.tail_cons, List.length_take,
            List.length_cons]
          rw [if_pos]
          omega

theorem fill_at_end (b : Reader) (hd : b.rd.data = []) :
    b.fill = { b with err := some IOError.EOF } :=
  fillLoop_at_end 99 b hd

theorem fill_progress (b : Reader) (hd : b.rd.data ≠ []) (hroom : b.unread.length < b.size) :
    ∃ k, 0 < k ∧ b.fill =
      { b with
        unread := b.unread ++ b.rd.data.take k
        rd := { data := b.rd.data.drop k, sched := b.rd.sched.tail } } :=
  fillLoop_progress 99 b hd hroom


/-! ### `ReadSlice` -/

/-- What one `ReadSlice` does, from any state its loop can be in: it returns
with enough fuel, leaves no pending error, hands out a prefix of the unread
stream, and either that prefix ends at the first delimiter, or the buffer
was full before a delimiter came, or the stream ended before one came. -/
theorem ReadSliceLoop_spec (c : UInt8) (fuel : Nat) (b : Reader) (s : Nat)
    (herr : b.err = none ∨ (b.err = some IOError.EOF ∧ b.rd.data = [] ∧ c ∉ b.unread))
    (hs : c ∉ b.unread.take s)
    (hfuel : b.rd.data.length + 2 ≤ fuel ∨ (b.err ≠ none ∧ 1 ≤ fuel)) :
    ∃ chunk e b1, Reader.ReadSliceLoop c fuel b s = some (chunk, e, b1) ∧
      b1.err = none ∧ b1.size = b.size ∧ chunk ++ b1.stream = b.stream ∧
      b1.rd.data.length ≤ b.rd.data.length ∧
      ((e = none ∧ ∃ a, chunk = a ++ [c] ∧ c ∉ a) ∨
       (e = some IOError.ErrBufferFull ∧ c ∉ chunk ∧ b.size ≤ chunk.length) ∨
       (e = some IOError.EOF ∧ c ∉ chunk ∧ b1.stream = [])) := by
  induction fuel generalizing b s with
  | zero => omega
  | succ fuel ih =>
    rw [Reader.ReadSliceLoop]
    cases hidx : IndexByte (b.unread.drop s) c with
    | some i =>
      have herr0 : b.err = none := by
        rcases herr with h | ⟨_, _, h3⟩
        · exact h
        · have hn : IndexByte (b.unread.drop s) c = none :=
            IndexByte_eq_none.2 (fun hm => h3 (List.mem_of_mem_drop hm))
          rw [hidx] at hn
          cases hn
      obtain ⟨h1, h2⟩ := IndexByte_drop hs hidx
      refine ⟨_, _, _, rfl, herr0, rfl, ?_, le_refl _, Or.inl ⟨rfl, _, h2, h1⟩⟩
      simp only [Reader.stream]
      rw [← List.append_assoc, List.take_append_drop]
    | none =>
      have hno : c ∉ b.unread := not_mem_of_drop hs (IndexByte_eq_none.1 hidx)
      cases hbe : b.err with
      | some e =>
        have he : e = IOError.EOF ∧ b.rd.data = [] := by
          rcases herr with h | ⟨h1, h2, _⟩
          · rw [hbe] at h; exact absurd h (by simp)
          · rw [hbe] at h1; exact ⟨Option.some.inj h1, h2⟩
        obtain ⟨rfl, hd⟩ := he
        refine ⟨_, _, _, rfl, rfl, rfl, ?_, le_refl _, Or.inr (Or.inr ⟨rfl, hno, ?_⟩)⟩
        · simp [Reader.stream, hd]
        · simp [Reader.stream, hd]
      | none =>
        simp only []
        by_cases hfull : b.unread.length ≥ b.size
        · rw [if_pos hfull]
          refine ⟨_, _, _, rfl, rfl, rfl, ?_, le_refl _, Or.inr (Or.inl ⟨rfl, hno, hfull⟩)⟩
          simp [Reader.stream]
        · rw [if_neg hfull]
          have hf : b.rd.data.length + 2 ≤ fuel + 1 := by
            rcases hfuel with h | ⟨h, _⟩
            · exact h
            · exact absurd hbe h
          by_cases hd : b.rd.data = []
          · have hfill := fill_at_end b hd
            obtain ⟨chunk, e, b1, hr, h1, h2, h3, h4, h5⟩ :=
              ih b.fill b.unread.length
                (by rw [hfill]; exact Or.inr ⟨rfl, hd, hno⟩)
                (by rw [hfill]; simpa using hno)
                (by rw [hfill]; exact Or.inr ⟨by simp, by omega⟩)
            refine ⟨chunk, e, b1, hr, h1, ?_, ?_, ?_, ?_⟩
            · rw [h2, hfill]
            · rw [h3, hfill]; rfl
            · rw [hfill] at h4; exact h4
            · rw [hfill] at h5; exact h5
          · obtain ⟨k, hk, hfill⟩ := fill_progress b hd (by omega)
            have hdl : 0 < b.rd.data.length := List.length_pos.2 hd
            obtain ⟨chunk, e, b1, hr, h1, h2, h3, h4, h5⟩ :=
              ih b.fill b.unread.length
                (by rw [hfill]; exact Or.inl hbe)
                (by rw [hfill]; simpa using hno)
                (by rw [hfill]; left; simp only [List.length_drop]; omega)
            refine ⟨chunk, e, b1, hr, h1, ?_, ?_, ?_, ?_⟩
            · rw [h2, hfill]
            · rw [h3, hfill]; simp [Reader.stream]
            · rw [hfill] at h4; simp only [List.length_drop] at h4; omega
            · rw [hfill] at h5; exact h5


/-! ### Lists cut at their first delimiter -/

theorem first_delim_unique {c : UInt8} {a1 a2 r1 r2 : List UInt8}
    (h1 : c ∉ a1) (h2 : c ∉ a2) (h : a1 ++ c :: r1 = a2 ++ c :: r2) :
    a1 = a2 ∧ r1 = r2 := by
  induction a1 generalizing a2 with
  | nil =>
    cases a2 with
    | nil => simpa using h
    | cons y ys =>
      simp only [List.nil_append, List.cons_append, List.cons.injEq] at h
      exact absurd h.1 (fun e => h2 (by simp [e]))
  | cons x xs ih =>
    cases a2 with
    | nil =>
      simp only [List.nil_append, List.cons_append, List.cons.injEq] at h
      exact absurd h.1.symm (fun e => h1 (by simp [e]))
    | cons y ys =>
      simp only [List.cons_append, List.cons.injEq] at h
      obtain ⟨hxy, ht⟩ := h
      obtain ⟨e1, e2⟩ := ih (fun hm => h1 (List.mem_cons_of_mem _ hm))
        (fun hm => h2 (List.mem_cons_of_mem _ hm)) ht
      exact ⟨by rw [hxy, e1], e2⟩

theorem delim_free_split {c : UInt8} {chunk st a rest : List UInt8}
    (hc : c ∉ chunk) (h : chunk ++ st = a ++ c :: rest) :
    ∃ a2, a = chunk ++ a2 ∧ st = a2 ++ c :: rest := by
  induction chunk generalizing a with
  | nil => exact ⟨a, rfl, by simpa using h⟩
  | cons x xs ih =>
    cases a with
    | nil =>
      simp only [List.nil_append, List.cons_append, List.cons.injEq] at h
      exact absurd h.1.symm (fun e => hc (by simp [e]))
    | cons y ys =>
      simp only [List.cons_append, List.cons.injEq] at h
      obtain ⟨hxy, ht⟩ := h
      obtain ⟨a2, e1, e2⟩ := ih (fun hm => hc (List.mem_cons_of_mem _ hm)) ht
      exact ⟨a2, by rw [hxy, e1]; rfl, e2⟩

/-- The end of `Recv`: `line[:n]` with `n = len(line) - 1` when `n >= 0`, and
nil otherwise, is the line without its last byte. -/
theorem recv_cut (l : List UInt8) (e : Option IOError) (c : line) :
    (if ((l.length : Int) - 1) ≥ 0 then
        some ((l.take ((l.length : Int) - 1).toNat, e), c)
      else some (([], e), c)) = some ((l.dropLast, e), c) := by
  cases l with
  | nil => simp
  | cons x xs =>
    have h : ((((x :: xs).length : Nat) : Int) - 1) ≥ 0 := by
      simp only [List.length_cons]; omega
    have h2 : ((((x :: xs).length : Nat) : Int) - 1).toNat = (x :: xs).length - 1 := by
      simp only [List.length_cons]; omega
    rw [if_pos h, h2, List.dropLast_eq_take]

/-! ### `Recv` -/

/-- `Recv` on a stream that holds a line: whatever the buffer size and
however the source cuts its reads, the loop returns the bytes before the
first LF (after what it had gathered) with a nil error and leaves the rest of
the stream unread. -/
theorem RecvLoop_line (inner outer : Nat) (c : line) (acc a rest : List UInt8)
    (hsize : 0 < c.buf.size) (herr : c.buf.err = none)
    (hst : c.buf.stream = a ++ 10 :: rest) (ha : (10 : UInt8) ∉ a)
    (hin : c.buf.rd.data.length + 2 ≤ inner) (hout : a.length + 1 ≤ outer) :
    ∃ c1, line.RecvLoop inner outer c acc = some ((acc ++ a, none), c1) ∧
      c1.wc = c.wc ∧ c1.buf.size = c.buf.size ∧ c1.buf.err = none ∧
      c1.buf.stream = rest ∧ c1.buf.rd.data.length ≤ c.buf.rd.data.length := by
  induction outer generalizing c acc a with
  | zero => omega
  | succ outer ih =>
    obtain ⟨chunk, e, b1, hr, h1, h2, h3, h4, h5⟩ :=
      ReadSliceLoop_spec 10 inner c.buf 0 (Or.inl herr) (by simp) (Or.inl hin)
    rw [line.RecvLoop, Reader.ReadSlice, hr]
    simp only []
    rcases h5 with ⟨rfl, a1, rfl, ha1⟩ | ⟨rfl, hc, hlen⟩ | ⟨rfl, hc, hnil⟩
    · rw [hst, List.append_assoc] at h3
      obtain ⟨e1, e2⟩ := first_delim_unique ha1 ha h3
      subst e1
      rw [if_neg (by simp), recv_cut]
      refine ⟨{ c with buf := b1 }, ?_, rfl, h2, h1, by simpa using e2, h4⟩
      simp [← List.append_assoc]
    · rw [if_pos rfl]
      rw [hst] at h3
      obtain ⟨a2, e1, e2⟩ := delim_free_split hc h3
      have ha2 : (10 : UInt8) ∉ a2 := fun hm => ha (by rw [e1]; exact List.mem_append_right _ hm)
      have hl : a2.length + 1 ≤ outer := by
        have : a.length = chunk.length + a2.length := by rw [e1, List.length_append]
        omega
      obtain ⟨c1, g1, g2, g3, g4, g5, g6⟩ :=
        ih { c with buf := b1 } (acc ++ chunk) a2 (by simpa [h2] using hsize) h1 e2 ha2
          (by simp only []; omega) hl
      refine ⟨c1, ?_, g2, by rw [g3]; exact h2, g4, g5, le_trans g6 h4⟩
      rw [g1, e1, List.append_assoc]
    · rw [hnil, List.append_nil, hst] at h3
      exact absurd (by rw [h3]; simp) hc

/-- `Recv` on a stream without LF: the loop reads the stream to its end and
returns what it gathered without its last byte, with `io.EOF`. -/
theorem RecvLoop_eof (inner outer : Nat) (c : line) (acc : List UInt8)
    (hsize : 0 < c.buf.size) (herr : c.buf.err = none)
    (hst : (10 : UInt8) ∉ c.buf.stream)
    (hin : c.buf.rd.data.length + 2 ≤ inner) (hout : c.buf.stream.length + 1 ≤ outer) :
    ∃ c1, line.RecvLoop inner outer c acc =
        some (((acc ++ c.buf.stream).dropLast, some IOError.EOF), c1) ∧
      c1.wc = c.wc ∧ c1.buf.size = c.buf.size ∧ c1.buf.err = none ∧
      c1.buf.stream = [] := by
  induction outer generalizing c acc with
  | zero => omega
  | succ outer ih =>
    obtain ⟨chunk, e, b1, hr, h1, h2, h3, h4, h5⟩ :=
      ReadSliceLoop_spec 10 inner c.buf 0 (Or.inl herr) (by simp) (Or.inl hin)
    rw [line.RecvLoop, Reader.ReadSlice, hr]
    simp only []
    rcases h5 with ⟨rfl, a1, rfl, _⟩ | ⟨rfl, hc, hlen⟩ | ⟨rfl, hc, hnil⟩
    · exact absurd (by rw [← h3]; simp) hst
    · rw [if_pos rfl]
      have hst1 : (10 : UInt8) ∉ b1.stream :=
        fun hm => hst (by rw [← h3]; exact List.mem_append_right _ hm)
      have hl : b1.stream.length + 1 ≤ outer := by
        have : c.buf.stream.length = chunk.length + b1.stream.length := by
          rw [← h3, List.length_append]
        omega
      obtain ⟨c1, g1, g2, g3, g4, g5⟩ :=
        ih { c with buf := b1 } (acc ++ chunk) (by simpa [h2] using hsize) h1 hst1
          (by simp only []; omega) hl
      refine ⟨c1, ?_, g2, by rw [g3]; exact h2, g4, g5⟩
      rw [g1, ← h3, List.append_assoc]
    · rw [if_neg (by simp), recv_cut]
      rw [hnil, List.append_nil] at h3
      exact ⟨{ c with buf := b1 }, by rw [h3], rfl, h2, h1, hnil⟩


theorem stripLF_not_mem (m : List UInt8) : (10 : UInt8) ∉ stripLF m := by
  simp [stripLF]

theorem stripLF_eq_self {m : List UInt8} (h : (10 : UInt8) ∉ m) : stripLF m = m := by
  simp only [stripLF, List.filter_eq_self]
  intro x hx
  simp only [ne_eq, decide_not, Bool.not_eq_eq_eq_not, Bool.not_true, decide_eq_false_iff_not]
  intro e
  exact h (e ▸ hx)

/-- C2: round trip.  When `Send m` writes onto a writer that has received
nothing yet and does not fail, and a channel with a buffer of any size
`size > 0` then reads the written bytes (the source cutting its reads in any
way), `Recv` returns `m` without its LF bytes and a nil error; when `m` has
no LF byte it returns `m` itself. -/
theorem recv_send_roundtrip (m : List UInt8) (cs : line) (size : Nat) (sched : List Nat)
    (wr : WriteCloser) (fuel : Nat)
    (hempty : cs.wc.calls = []) (hok : cs.wc.failure = none)
    (hsize : 0 < size) (hfuel : m.length + 3 ≤ fuel) :
    ∃ cs1 cr1, cs.Send m = some (none, cs1) ∧
      (lineOver size cs1.wc.calls.flatten sched wr).Recv fuel = some ((stripLF m, none), cr1) ∧
      ((10 : UInt8) ∉ m →
        (lineOver size cs1.wc.calls.flatten sched wr).Recv fuel = some ((m, none), cr1)) := by
  have hsend := Send_eq cs m
  rw [hok, hempty] at hsend
  have hlen := stripLF_length_le m
  obtain ⟨cr1, h1, _⟩ :=
    RecvLoop_line fuel fuel (lineOver size (stripLF m ++ [10]) sched wr) [] (stripLF m) []
      hsize rfl (by simp [lineOver, Reader.stream]) (stripLF_not_mem m)
      (by simp [lineOver]; omega) (by omega)
  refine ⟨_, cr1, hsend, ?_, ?_⟩
  · simpa [line.Recv] using h1
  · intro hm
    have h2 : (lineOver size (stripLF m ++ [10]) sched wr).Recv fuel =
        some ((stripLF m, none), cr1) := by simpa [line.Recv] using h1
    rw [stripLF_eq_self hm] at h2
    simpa [stripLF_eq_self hm] using h2

theorem recv_send_roundtrip_witness :
    (lineOver 16 [] [] ⟨[], none⟩).wc.calls = [] ∧
    (lineOver 16 [] [] ⟨[], none⟩).wc.failure = none ∧ 0 < 2 ∧
    ([104, 10, 105] : List UInt8).length + 3 ≤ 6 ∧
    ∃ cs1 cr1, (lineOver 16 [] [] ⟨[], none⟩).Send [104, 10, 105] = some (none, cs1) ∧
      (lineOver 2 cs1.wc.calls.flatten [1] ⟨[], none⟩).Recv 6 = some (([104, 105], none), cr1) ∧
      ((10 : UInt8) ∉ [104, 10, 105] →
        (lineOver 2 cs1.wc.calls.flatten [1] ⟨[], none⟩).Recv 6 =
          some (([104, 10, 105], none), cr1)) :=
  ⟨rfl, rfl, by decide, by decide,
    recv_send_roundtrip [104, 10, 105] (lineOver 16 [] [] ⟨[], none⟩) 2 [1] ⟨[], none⟩ 6
      rfl rfl (by decide) (by decide)⟩

/-- C3: the code at a stream that ends in the middle of a line.  On the
two-byte stream `ab` without LF, `Recv` returns the single byte `a` with
`io.EOF`: the last byte read is cut off. -/
theorem recv_partial_line_loses_last_byte :
    ((Line ⟨[97, 98], []⟩ ⟨[], none⟩).Recv 3).map Prod.fst =
      some ([97], some IOError.EOF) := by
  decide

/-- C4: at the end of the stream, with nothing buffered, `Recv` returns a
zero-length result with `io.EOF`, for every buffer size (a `bufio` buffer
has at least 16 bytes, so its size is positive). -/
theorem recv_at_end_of_stream (c : line) (fuel : Nat)
    (hsize : 0 < c.buf.size) (herr : c.buf.err = none) (hend : c.buf.stream = [])
    (hfuel : 2 ≤ fuel) :
    ∃ c1, c.Recv fuel = some (([], some IOError.EOF), c1) ∧ c1.buf.stream = [] := by
  have hd : c.buf.rd.data = [] := by
    have := congrArg List.length hend
    simp only [Reader.stream, List.length_append, List.length_nil] at this
    exact List.length_eq_zero.1 (by omega)
  obtain ⟨c1, h1, _, _, _, h5⟩ :=
    RecvLoop_eof fuel fuel c [] hsize herr (by rw [hend]; simp)
      (by rw [hd]; simpa using hfuel) (by rw [hend]; simp; omega)
  refine ⟨c1, ?_, h5⟩
  rw [line.Recv, h1, hend]
  rfl

theorem recv_at_end_of_stream_witness :
    0 < (lineOver 16 [] [] ⟨[], none⟩).buf.size ∧
    (lineOver 16 [] [] ⟨[], none⟩).buf.err = none ∧
    (lineOver 16 [] [] ⟨[], none⟩).buf.stream = [] ∧ 2 ≤ 2 ∧
    ∃ c1, (lineOver 16 [] [] ⟨[], none⟩).Recv 2 = some (([], some IOError.EOF), c1) ∧
      c1.buf.stream = [] :=
  ⟨by decide, rfl, rfl, by decide,
    recv_at_end_of_stream (lineOver 16 [] [] ⟨[], none⟩) 2 (by decide) rfl rfl (by decide)⟩

/-- C5: `Recv` does not truncate a long line.  For every buffer size `B > 0`
and every unread stream `a ++ [LF] ++ rest` with no LF in `a`, also when `a`
is longer than the buffer, `Recv` returns with enough fuel, its result is
exactly `a` with a nil error whatever `B` is, and `rest` is left unread. -/
theorem recv_long_line (c : line) (a rest : List UInt8) (fuel : Nat)
    (hsize : 0 < c.buf.size) (herr : c.buf.err = none)
    (hst : c.buf.stream = a ++ 10 :: rest) (ha : (10 : UInt8) ∉ a)
    (hfuel : c.buf.stream.length + 2 ≤ fuel) :
    ∃ c1, c.Recv fuel = some ((a, none), c1) ∧ c1.buf.stream = rest ∧
      c1.buf.size = c.buf.size ∧ c1.wc = c.wc := by
  have hl : c.buf.stream.length = c.buf.unread.length + c.buf.rd.data.length := by
    simp [Reader.stream]
  have hl2 : c.buf.stream.length = a.length + (rest.length + 1) := by
    rw [hst]; simp
  obtain ⟨c1, h1, h2, h3, _, h5, _⟩ :=
    RecvLoop_line fuel fuel c [] a rest hsize herr hst ha (by omega) (by omega)
  exact ⟨c1, by simpa [line.Recv] using h1, h5, h3, h2⟩

theorem recv_long_line_witness :
    0 < (lineOver 2 [1, 2, 3, 4, 5, 10, 7, 10] [1] ⟨[], none⟩).buf.size ∧
    (lineOver 2 [1, 2, 3, 4, 5, 10, 7, 10] [1] ⟨[], none⟩).buf.err = none ∧
    (lineOver 2 [1, 2, 3, 4, 5, 10, 7, 10] [1] ⟨[], none⟩).buf.stream =
      [1, 2, 3, 4, 5] ++ 10 :: [7, 10] ∧
    (10 : UInt8) ∉ [1, 2, 3, 4, 5] ∧
    (lineOver 2 [1, 2, 3, 4, 5, 10, 7, 10] [1] ⟨[], none⟩).buf.stream.length + 2 ≤ 10 ∧
    ∃ c1, (lineOver 2 [1, 2, 3, 4, 5, 10, 7, 10] [1] ⟨[], none⟩).Recv 10 =
        some (([1, 2, 3, 4, 5], none), c1) ∧ c1.buf.stream = [7, 10] ∧
      c1.buf.size = (lineOver 2 [1, 2, 3, 4, 5, 10, 7, 10] [1] ⟨[], none⟩).buf.size ∧
      c1.wc = (lineOver 2 [1, 2, 3, 4, 5, 10, 7, 10] [1] ⟨[], none⟩).wc :=
  ⟨by decide, rfl, rfl, by decide, by decide,
    recv_long_line (lineOver 2 [1, 2, 3, 4, 5, 10, 7, 10] [1] ⟨[], none⟩) [1, 2, 3, 4, 5]
      [7, 10] 10 (by decide) rfl rfl (by decide) (by decide)⟩

/-! ### Sequences of messages -/

theorem sendAll_calls (ms : List (List UInt8)) (c : line) :
    ∃ c1, sendAll c ms = some (List.replicate ms.length c.wc.failure, c1) ∧
      c1.wc.calls = c.wc.calls ++ ms.map (fun m => stripLF m ++ [10]) ∧
      c1.wc.failure = c.wc.failure ∧ c1.buf = c.buf := by
  induction ms generalizing c with
  | nil => exact ⟨c, rfl, by simp, rfl, rfl⟩
  | cons m ms ih =>
    obtain ⟨c1, h1, h2, h3, h4⟩ :=
      ih { c with wc := { c.wc with calls := c.wc.calls ++ [stripLF m ++ [10]] } }
    refine ⟨c1, ?_, ?_, h3, h4⟩
    · rw [sendAll, Send_eq]
      simp only []
      rw [h1]
      rfl
    · rw [h2]; simp

theorem recvMany_frames (fuel : Nat) (ms : List (List UInt8)) (c : line)
    (hsize : 0 < c.buf.size) (herr : c.buf.err = none)
    (hst : c.buf.stream = (ms.map (fun m => stripLF m ++ [10])).flatten)
    (hfuel : c.buf.stream.length + 2 ≤ fuel) :
    ∃ c1, recvMany fuel (ms.length + 1) c =
      some (ms.map (fun m => (stripLF m, none)) ++ [([], some IOError.EOF)], c1) := by
  have hl : c.buf.stream.length = c.buf.unread.length + c.buf.rd.data.length := by
    simp [Reader.stream]
  induction ms generalizing c with
  | nil =>
    have hnil : c.buf.stream = [] := by simpa using hst
    obtain ⟨c1, h1, _⟩ :=
      RecvLoop_eof fuel fuel c [] hsize herr (by rw [hnil]; simp) (by omega) (by omega)
    refine ⟨c1, ?_⟩
    simp only [recvMany, line.Recv, h1, hnil]
    rfl
  | cons m ms ih =>
    have hst1 : c.buf.stream =
        stripLF m ++ 10 :: (ms.map (fun m => stripLF m ++ [10])).flatten := by
      rw [hst]; simp
    have hlen : c.buf.stream.length =
        (stripLF m).length + ((ms.map (fun m => stripLF m ++ [10])).flatten.length + 1) := by
      rw [hst1]; simp
    obtain ⟨c1, h1, _, h3, h4, h5, h6⟩ :=
      RecvLoop_line fuel fuel c [] (stripLF m) _ hsize herr hst1 (stripLF_not_mem m)
        (by omega) (by omega)
    obtain ⟨c2, g⟩ := ih c1 (by rw [h3]; exact hsize) h4 h5 (by rw [h5]; omega)
      (by simp [Reader.stream])
    refine ⟨c2, ?_⟩
    rw [List.length_cons, recvMany, line.Recv, h1]
    simp only [List.nil_append]
    rw [g]
    simp

/-- C13: one message per line, in order.  When `Send` is called on
`m1 .. mn` in turn on a writer that has received nothing yet and does not
fail, every `Send` returns a nil error; and when a channel with a buffer of
any size `size > 0` then reads the written bytes up to their end, `n + 1`
calls of `Recv` return `strip(m1) .. strip(mn)` in that order, each with a nil
error, and then a zero-length result with `io.EOF`. -/
theorem recv_sequence_in_order (ms : List (List UInt8)) (cs : line) (size : Nat)
    (sched : List Nat) (wr : WriteCloser) (fuel : Nat)
    (hempty : cs.wc.calls = []) (hok : cs.wc.failure = none) (hsize : 0 < size)
    (hfuel : (ms.map (fun m => stripLF m ++ [10])).flatten.length + 2 ≤ fuel) :
    ∃ cs1 cr, sendAll cs ms = some (List.replicate ms.length none, cs1) ∧
      recvMany fuel (ms.length + 1) (lineOver size cs1.wc.calls.flatten sched wr) =
        some (ms.map (fun m => (stripLF m, none)) ++ [([], some IOError.EOF)], cr) := by
  obtain ⟨cs1, h1, h2, _⟩ := sendAll_calls ms cs
  rw [hok] at h1
  rw [hempty, List.nil_append] at h2
  obtain ⟨cr, h⟩ :=
    recvMany_frames fuel ms (lineOver size cs1.wc.calls.flatten sched wr) hsize rfl
      (by rw [h2]; simp [lineOver, Reader.stream])
      (by rw [h2]; simpa [lineOver, Reader.stream] using hfuel)
  exact ⟨cs1, cr, h1, h⟩

theorem recv_sequence_in_order_witness :
    (lineOver 16 [] [] ⟨[], none⟩).wc.calls = [] ∧
    (lineOver 16 [] [] ⟨[], none⟩).wc.failure = none ∧ 0 < 2 ∧
    (([[104, 10, 105], [], [106]] : List (List UInt8)).map
      (fun m => stripLF m ++ [10])).flatten.length + 2 ≤ 9 ∧
    ∃ cs1 cr, sendAll (lineOver 16 [] [] ⟨[], none⟩) [[104, 10, 105], [], [106]] =
        some (List.replicate ([[104, 10, 105], [], [106]] : List (List UInt8)).length none,
          cs1) ∧
      recvMany 9 (([[104, 10, 105], [], [106]] : List (List UInt8)).length + 1)
          (lineOver 2 cs1.wc.calls.flatten [1] ⟨[], none⟩) =
        some (([[104, 10, 105], [], [106]] : List (List UInt8)).map
          (fun m => (stripLF m, none)) ++ [([], some IOError.EOF)], cr) :=
  ⟨rfl, rfl, by decide, by decide,
    recv_sequence_in_order [[104, 10, 105], [], [106]] (lineOver 16 [] [] ⟨[], none⟩) 2 [1]
      ⟨[], none⟩ 9 rfl rfl (by decide) (by decide)⟩

/-! ### The frame -/

theorem stripLF_length_add_count (msg : List UInt8) :
    (stripLF msg).length + msg.count 10 = msg.length := by
  induction msg with
  | nil => simp [stripLF]
  | cons b rest ih =>
    by_cases hb : b = 10
    · subst hb
      rw [stripLF_cons_lf]
      simp only [List.count_cons_self, List.length_cons]
      omega
    · rw [stripLF_cons_other b rest hb, List.count_cons_of_ne (fun e => hb e.symm)]
      simp only [List.length_cons]
      omega

/-- C14: framing invariant.  The frame that `Send(msg)` writes holds exactly
one LF byte, which is its last byte; its length is `len(msg) + 1` minus the
number of LF bytes of `msg`, hence between 1 and `len(msg) + 1`. -/
theorem send_frame_invariant (c : line) (msg : List UInt8) :
    ∃ frame err c1, c.Send msg = some (err, c1) ∧ c1.wc.calls = c.wc.calls ++ [frame] ∧
      frame.count 10 = 1 ∧ frame.getLast? = some 10 ∧
      frame.length = msg.length + 1 - msg.count 10 ∧
      1 ≤ frame.length ∧ frame.length ≤ msg.length + 1 := by
  have hcount := stripLF_length_add_count msg
  have hno : (stripLF msg).count 10 = 0 := List.count_eq_zero.2 (stripLF_not_mem msg)
  refine ⟨stripLF msg ++ [10], _, _, Send_eq c msg, rfl, ?_, ?_, ?_, ?_, ?_⟩
  · simp [hno]
  · simp
  · simp only [List.length_append, List.length_singleton]; omega
  · simp
  · simp only [List.length_append, List.length_singleton]; omega

/-! ### `Recv` on any stream -/

theorem linePrefix_cases (l : List UInt8) :
    (∃ a rest, l = a ++ 10 :: rest ∧ (10 : UInt8) ∉ a ∧ linePrefix l = a ++ [10]) ∨
    ((10 : UInt8) ∉ l ∧ linePrefix l = l) := by
  induction l with
  | nil => right; simp [linePrefix]
  | cons x xs ih =>
    by_cases hx : x = 10
    · left
      exact ⟨[], xs, by simp [hx], by simp, by simp [linePrefix, hx]⟩
    · have hx2 : ¬ (10 : UInt8) = x := fun e => hx e.symm
      rcases ih with ⟨a, rest, h1, h2, h3⟩ | ⟨h1, h2⟩
      · left
        exact ⟨x :: a, rest, by simp [h1], by simp [hx2, h2], by simp [linePrefix, hx, h3]⟩
      · right
        exact ⟨by simp [hx2, h1], by simp [linePrefix, hx, h2]⟩

theorem not_mem_dropLast {l : List UInt8} (h : (10 : UInt8) ∉ l) : (10 : UInt8) ∉ l.dropLast :=
  fun hm => h (List.mem_of_mem_dropLast hm)

/-- C19: `Recv` on any unread stream, for every buffer size (positive, as
every `bufio` buffer is).  With enough fuel `Recv` returns; what it consumes
is the prefix `p` of the unread stream up to and including the first LF, or
the whole of it when there is no LF; the message is `p` without its last
byte (zero-length for an empty `p`); the error is nil exactly when `p` ends
with LF, and `io.EOF` otherwise; and the message holds no LF byte. -/
theorem recv_characterisation (c : line) (fuel : Nat)
    (hsize : 0 < c.buf.size) (herr : c.buf.err = none)
    (hfuel : c.buf.stream.length + 2 ≤ fuel) :
    ∃ msg e c1, c.Recv fuel = some ((msg, e), c1) ∧
      c.buf.stream = linePrefix c.buf.stream ++ c1.buf.stream ∧
      msg = (linePrefix c.buf.stream).dropLast ∧
      (e = none ↔ (linePrefix c.buf.stream).getLast? = some 10) ∧
      (e = none ∨ e = some IOError.EOF) ∧
      (10 : UInt8) ∉ msg := by
  have hl : c.buf.stream.length = c.buf.unread.length + c.buf.rd.data.length := by
    simp [Reader.stream]
  rcases linePrefix_cases c.buf.stream with ⟨a, rest, h1, h2, h3⟩ | ⟨h1, h2⟩
  · have hlen : c.buf.stream.length = a.length + (rest.length + 1) := by rw [h1]; simp
    obtain ⟨c1, g1, _, _, _, g5, _⟩ :=
      RecvLoop_line fuel fuel c [] a rest hsize herr h1 h2 (by omega) (by omega)
    refine ⟨a, none, c1, by simpa [line.Recv] using g1, ?_, ?_, ?_, Or.inl rfl, h2⟩
    · rw [h3, g5, List.append_assoc]; exact h1
    · rw [h3]; simp
    · rw [h3]; simp
  · obtain ⟨c1, g1, _, _, _, g5⟩ :=
      RecvLoop_eof fuel fuel c [] hsize herr h1 (by omega) (by omega)
    refine ⟨c.buf.stream.dropLast, some IOError.EOF, c1, by simpa [line.Recv] using g1,
      ?_, ?_, ?_, Or.inr rfl, not_mem_dropLast h1⟩
    · rw [h2, g5, List.append_nil]
    · rw [h2]
    · rw [h2]
      constructor
      · intro h; cases h
      · intro h
        exact absurd (List.mem_of_getLast?_eq_some h) h1

theorem recv_characterisation_witness :
    0 < (lineOver 2 [1, 2, 3, 10, 7] [1] ⟨[], none⟩).buf.size ∧
    (lineOver 2 [1, 2, 3, 10, 7] [1] ⟨[], none⟩).buf.err = none ∧
    (lineOver 2 [1, 2, 3, 10, 7] [1] ⟨[], none⟩).buf.stream.length + 2 ≤ 7 ∧
    ∃ msg e c1, (lineOver 2 [1, 2, 3, 10, 7] [1] ⟨[], none⟩).Recv 7 = some ((msg, e), c1) ∧
      (lineOver 2 [1, 2, 3, 10, 7] [1] ⟨[], none⟩).buf.stream =
        linePrefix (lineOver 2 [1, 2, 3, 10, 7] [1] ⟨[], none⟩).buf.stream ++ c1.buf.stream ∧
      msg = (linePrefix (lineOver 2 [1, 2, 3, 10, 7] [1] ⟨[], none⟩).buf.stream).dropLast ∧
      (e = none ↔
        (linePrefix (lineOver 2 [1, 2, 3, 10, 7] [1] ⟨[], none⟩).buf.stream).getLast? =
          some 10) ∧
      (e = none ∨ e = some IOError.EOF) ∧
      (10 : UInt8) ∉ msg :=
  ⟨by decide, rfl, by decide,
    recv_characterisation (lineOver 2 [1, 2, 3, 10, 7] [1] ⟨[], none⟩) 7
      (by decide) rfl (by decide)⟩

/-! ### Bounds in `Send` -/

/-- C20: the indexing of `Send` stays in bounds.  After the loop has
processed any prefix `p` of `msg` it has not gone out of range, the write
index `j` is at most the number of bytes processed, which is below
`len(out) = len(msg) + 1`; after the whole loop `j <= len(msg)`; and `Send`
as a whole does not panic. -/
theorem send_index_in_bounds (c : line) (msg : List UInt8) :
    (∀ p, p <+: msg → ∃ st, sendLoop (sendInit msg) p = some st ∧
      st.j ≤ p.length ∧ p.length < st.out.length ∧ st.out.length = msg.length + 1) ∧
    (∃ st, sendLoop (sendInit msg) msg = some st ∧ st.j ≤ msg.length ∧
      st.j < st.out.length ∧ st.j + 1 ≤ (st.out.set st.j 10).length) ∧
    (c.Send msg).isSome = true := by
  have key : ∀ p, p <+: msg → ∃ st, sendLoop (sendInit msg) p = some st ∧
      st.j ≤ p.length ∧ p.length < st.out.length ∧ st.out.length = msg.length + 1 := by
    intro p hp
    have hle := hp.length_le
    obtain ⟨st, h1, _, h3, h4, _⟩ := sendLoop_spec p (sendInit msg) rfl (by
      simp only [sendInit, List.length_replicate]; omega)
    have hlen : st.out.length = msg.length + 1 := by simpa [sendInit] using h3
    have hs := stripLF_length_le p
    simp only [sendInit, Nat.zero_add] at h4
    exact ⟨st, h1, by omega, by omega, hlen⟩
  refine ⟨key, ?_, ?_⟩
  · obtain ⟨st, h1, h2, h3, h4⟩ := key msg (List.prefix_refl msg)
    exact ⟨st, h1, h2, by omega, by simp only [List.length_set]; omega⟩
  · rw [Send_eq]; rfl

end channel

namespace code

/-! ### `FromError` -/

theorem errorsAsErrCoder_code (e : error) :
    (errorsAsErrCoder e).bind error.ErrCoder = (e.chain.filterMap error.ErrCoder).head? := by
  induction e with
  | code c => simp [errorsAsErrCoder, error.chain, error.ErrCoder]
  | Canceled => simp [errorsAsErrCoder, error.chain, error.ErrCoder]
  | DeadlineExceeded => simp [errorsAsErrCoder, error.chain, error.ErrCoder]
  | leaf id msg ec => cases ec <;> simp [errorsAsErrCoder, error.chain, error.ErrCoder]
  | wrap id msg ec inner ih =>
    cases ec with
    | some c => simp [errorsAsErrCoder, error.chain, error.ErrCoder]
    | none => simpa [errorsAsErrCoder, error.chain, error.ErrCoder] using ih

theorem error_beq_decide (a b : error) : (a == b) = decide (b = a) := by
  by_cases h : b = a
  · simp [h]
  · have h1 : ¬ a = b := fun e => h e.symm
    simp [h, h1]

theorem errorsIsLoop_mem (t e : error)
    (h : (e.chain.filterMap error.ErrCoder).head? = none) :
    errorsIsLoop t e = decide (t ∈ e.chain) := by
  induction e with
  | code c => simp [error.chain, error.ErrCoder] at h
  | Canceled => simp [errorsIsLoop, error.chain, error.methodIs, error_beq_decide]
  | DeadlineExceeded => simp [errorsIsLoop, error.chain, error.methodIs, error_beq_decide]
  | leaf id msg ec => simp [errorsIsLoop, error.chain, error.methodIs, error_beq_decide]
  | wrap id msg ec inner ih =>
    cases ec with
    | some c => simp [error.chain, error.ErrCoder] at h
    | none =>
      have h1 : (inner.chain.filterMap error.ErrCoder).head? = none := by
        simpa [error.chain, error.ErrCoder] using h
      simp [errorsIsLoop, error.chain, error.methodIs, ih h1, error_beq_decide]

theorem FromError_eq_classify_aux (e : error) : FromError (some e) = classify (some e) := by
  simp only [FromError, classify, errorsAsErrCoder_code]
  cases h : (e.chain.filterMap error.ErrCoder).head? with
  | some c => rfl
  | none => simp [errorsIs, errorsIsLoop_mem _ e h]

/-- C6: `FromError` is the reference classifier on every error value:
`NoError` for nil; else the code of the outermost `ErrCoder` of the wrap
chain, before any look at `context.Canceled` or `context.DeadlineExceeded`;
else `Cancelled` when the chain holds `context.Canceled`; else
`DeadlineExceeded` when it holds `context.DeadlineExceeded`; else
`SystemError`. -/
theorem FromError_eq_classify (err : Option error) : FromError err = classify err := by
  cases err with
  | none => rfl
  | some e => exact FromError_eq_classify_aux e

/-! ### `Register` -/

theorem Registry.eq_of_lookup {a b : Registry} (h : ∀ c, a.lookup c = b.lookup c) : a = b := by
  cases a with
  | mk f =>
    cases b with
    | mk g =>
      have : f = g := funext h
      rw [this]

theorem Registry.set_set (reg : Registry) (k : Code) (m : String) :
    (reg.set k m).set k m = reg.set k m := by
  apply Registry.eq_of_lookup
  intro c
  by_cases h : c = k <;> simp [Registry.set, h]

theorem Registry.lookup_set_self (reg : Registry) (k : Code) (m : String) :
    (reg.set k m).lookup k = some m := by
  simp [Registry.set]

theorem Register_ok_inv {reg reg1 : Registry} {v : Int} {m : String} {c : Code}
    (h : Register reg v m = Except.ok (c, reg1)) : c = ⟨v⟩ ∧ reg1 = reg.set ⟨v⟩ m := by
  unfold Register at h
  cases hl : reg.lookup ⟨v⟩ with
  | none =>
    simp only [hl, Except.ok.injEq, Prod.mk.injEq] at h
    exact ⟨h.1.symm, h.2.symm⟩
  | some s =>
    simp only [hl] at h
    by_cases hs : s = m
    · simp only [hs, ne_eq, not_true_eq_false, if_false, Except.ok.injEq, Prod.mk.injEq] at h
      exact ⟨h.1.symm, h.2.symm⟩
    · simp [hs] at h

/-- C7: `Register(v, m)` panics exactly when `Code(v)` is registered with a
message other than `m`; otherwise it returns `Code(v)` and `Code(v)` is then
registered with `m`.  After a `Register(v, m)` that returned, the same call
again returns and leaves the registry as it is, and `Register(v, m1)` with
another message `m1` panics. -/
theorem Register_spec (reg : Registry) (v : Int) (m : String) :
    ((∃ p, Register reg v m = Except.error p) ↔ ∃ s, reg.lookup ⟨v⟩ = some s ∧ s ≠ m) ∧
    ((¬ ∃ s, reg.lookup ⟨v⟩ = some s ∧ s ≠ m) →
      ∃ reg1, Register reg v m = Except.ok (⟨v⟩, reg1) ∧ reg1.lookup ⟨v⟩ = some m) ∧
    (∀ c reg1, Register reg v m = Except.ok (c, reg1) →
      Register reg1 v m = Except.ok (c, reg1) ∧
      ∀ m1, m1 ≠ m → ∃ p, Register reg1 v m1 = Except.error p) := by
  refine ⟨?_, ?_, ?_⟩
  · cases hl : reg.lookup ⟨v⟩ with
    | none => simp [Register, hl]
    | some s =>
      by_cases hs : s = m
      · simp [Register, hl, hs]
      · simp [Register, hl, hs]
  · intro hno
    refine ⟨reg.set ⟨v⟩ m, ?_, Registry.lookup_set_self reg ⟨v⟩ m⟩
    cases hl : reg.lookup ⟨v⟩ with
    | none => simp [Register, hl]
    | some s =>
      have hs : s = m := by
        by_contra hne
        exact hno ⟨s, hl, hne⟩
      simp [Register, hl, hs]
  · intro c reg1 h
    obtain ⟨rfl, rfl⟩ := Register_ok_inv h
    refine ⟨?_, ?_⟩
    · simp [Register, Registry.lookup_set_self, Registry.set_set]
    · intro m1 hm1
      have hm2 : ¬ m = m1 := fun e => hm1 e.symm
      exact ⟨⟨⟨v⟩, m⟩, by simp [Register, Registry.lookup_set_self, hm2]⟩

/-! ### `Code.Err`, `codeError` -/

/-- C8: `c.Err()` is nil exactly for `NoError`; for any other code it is a
`codeError` value whose `ErrCode()` is `c` and whose `Error()` text is
`c.String()`, in every state of the registry. -/
theorem Err_spec (c : Code) :
    (c.Err = none ↔ c = NoError) ∧
    (c ≠ NoError → ∃ ce : codeError, c.Err = some (error.code ce) ∧
      ce.ErrCode = c ∧ (error.code ce).ErrCoder = some c ∧
      ∀ reg, ce.Error reg = c.String reg ∧ (error.code ce).Error reg = c.String reg) := by
  refine ⟨?_, ?_⟩
  · by_cases h : c = NoError <;> simp [Code.Err, h]
  · intro h
    exact ⟨⟨c⟩, by simp [Code.Err, h], rfl, rfl, fun reg => ⟨rfl, rfl⟩⟩

theorem errorsIs_Err (a b : Code) (ha : a ≠ NoError) (hb : b ≠ NoError) :
    errorsIs a.Err b.Err = true ↔ a = b := by
  simp only [Code.Err, ha, hb, if_false, errorsIs, errorsIsLoop, error.methodIs, codeError.Is,
    error.ErrCoder, codeError.ErrCode]
  constructor
  · intro h
    simp only [Bool.or_eq_true, beq_iff_eq, error.code.injEq, codeError.mk.injEq] at h
    rcases h with h | h
    · exact h
    · exact h.symm
  · intro h
    simp [h]

/-- C9: matching is by code.  `codeError(c).Is(err)` holds exactly when
`err` is an `ErrCoder` whose `ErrCode()` is `c`; so for codes `a`, `b` other
than `NoError`, `errors.Is(a.Err(), b.Err())` holds exactly when `a = b`, and
on these errors the relation is reflexive, symmetric and transitive. -/
theorem codeError_Is_spec :
    (∀ (c : Code) (err : Option error),
      codeError.Is ⟨c⟩ err = true ↔ ∃ e, err = some e ∧ e.ErrCoder = some c) ∧
    (∀ a b : Code, a ≠ NoError → b ≠ NoError → (errorsIs a.Err b.Err = true ↔ a = b)) ∧
    (∀ a : Code, a ≠ NoError → errorsIs a.Err a.Err = true) ∧
    (∀ a b : Code, a ≠ NoError → b ≠ NoError →
      errorsIs a.Err b.Err = true → errorsIs b.Err a.Err = true) ∧
    (∀ a b c : Code, a ≠ NoError → b ≠ NoError → c ≠ NoError →
      errorsIs a.Err b.Err = true → errorsIs b.Err c.Err = true →
      errorsIs a.Err c.Err = true) := by
  refine ⟨?_, errorsIs_Err, ?_, ?_, ?_⟩
  · intro c err
    cases err with
    | none => simp [codeError.Is]
    | some e =>
      cases h : e.ErrCoder with
      | none => simp [codeError.Is, h]
      | some v => simp [codeError.Is, h]
  · intro a ha
    exact (errorsIs_Err a a ha ha).2 rfl
  · intro a b ha hb h
    exact (errorsIs_Err b a hb ha).2 ((errorsIs_Err a b ha hb).1 h).symm
  · intro a b c ha hb hc h1 h2
    exact (errorsIs_Err a c ha hc).2
      (((errorsIs_Err a b ha hb).1 h1).trans ((errorsIs_Err b c hb hc).1 h2))

/-! ### `Code.String` -/

/-- C10: in every state of the registry `c.String()` is the description
registered for `c` when there is one, and otherwise `error code ` followed by
the signed decimal form of `c`; in the initial registry the nine pre-defined
codes give their listed descriptions. -/
theorem String_spec :
    (∀ (reg : Registry) (c : Code) (s : String), reg.lookup c = some s → c.String reg = s) ∧
    (∀ (reg : Registry) (c : Code), reg.lookup c = none →
      c.String reg = "error code " ++ formatDecimal c.val) ∧
    (Code.String stdError ⟨42⟩ = "error code 42" ∧
      Code.String stdError ⟨-7⟩ = "error code -7" ∧
      Code.String stdError ⟨0⟩ = "error code 0" ∧
      Code.String stdError ⟨2147483647⟩ = "error code 2147483647" ∧
      Code.String stdError ⟨-2147483648⟩ = "error code -2147483648") ∧
    (ParseError.String stdError = "parse error" ∧
      InvalidRequest.String stdError = "invalid request" ∧
      MethodNotFound.String stdError = "method not found" ∧
      InvalidParams.String stdError = "invalid parameters" ∧
      InternalError.String stdError = "internal error" ∧
      NoError.String stdError = "no error (success)" ∧
      SystemError.String stdError = "system error" ∧
      Cancelled.String stdError = "request cancelled" ∧
      DeadlineExceeded.String stdError = "deadline exceeded") := by
  refine ⟨?_, ?_, ?_, ?_⟩
  · intro reg c s h
    simp [Code.String, h]
  · intro reg c h
    simp [Code.String, h]
  · decide
  · decide

/-! ### The registry over time -/

theorem Registry.lookup_set_other (reg : Registry) (k c : Code) (m : String) (h : c ≠ k) :
    (reg.set k m).lookup c = reg.lookup c := by
  simp [Registry.set, h]

theorem Register_keeps {reg reg1 : Registry} {v : Int} {m : String} {c1 : Code}
    (h : Register reg v m = Except.ok (c1, reg1)) (c : Code) (s : String)
    (hc : reg.lookup c = some s) : reg1.lookup c = some s := by
  obtain ⟨_, rfl⟩ := Register_ok_inv h
  by_cases hk : c = ⟨v⟩
  · subst hk
    unfold Register at h
    simp only [hc] at h
    by_cases hs : s = m
    · rw [Registry.lookup_set_self, hs]
    · simp [hs] at h
  · rw [Registry.lookup_set_other _ _ _ _ hk, hc]

theorem registerStep_keeps (reg : Registry) (call : Int × String) (c : Code) (s : String)
    (hc : reg.lookup c = some s) : (registerStep reg call).lookup c = some s := by
  unfold registerStep
  cases h : Register reg call.1 call.2 with
  | error p => exact hc
  | ok r =>
    obtain ⟨c1, reg1⟩ := r
    exact Register_keeps h c s hc

theorem registerAll_keeps (calls : List (Int × String)) (reg : Registry) (c : Code) (s : String)
    (hc : reg.lookup c = some s) : (registerAll reg calls).lookup c = some s := by
  induction calls generalizing reg with
  | nil => exact hc
  | cons call rest ih =>
    exact ih (registerStep reg call) (registerStep_keeps reg call c s hc)

/-- C15: registry invariant.  In the registry reached from the initial one by
any sequence of `Register` calls, a further call that returns leaves every
description present before it as it was, and a call that panics leaves the
whole registry as it was; so a description, once present, is the same after
any further calls, and those of the initial registry stay for ever. -/
theorem registry_descriptions_stable :
    (∀ (calls : List (Int × String)) (v : Int) (m : String),
      (∀ c1 reg1, Register (registerAll stdError calls) v m = Except.ok (c1, reg1) →
        registerStep (registerAll stdError calls) (v, m) = reg1 ∧
        ∀ c s, (registerAll stdError calls).lookup c = some s → reg1.lookup c = some s) ∧
      (∀ p, Register (registerAll stdError calls) v m = Except.error p →
        registerStep (registerAll stdError calls) (v, m) = registerAll stdError calls)) ∧
    (∀ (calls more : List (Int × String)) (c : Code) (s : String),
      (registerAll stdError calls).lookup c = some s →
      (registerAll stdError (calls ++ more)).lookup c = some s) ∧
    (∀ (calls : List (Int × String)) (c : Code) (s : String),
      stdError.lookup c = some s → (registerAll stdError calls).lookup c = some s) := by
  refine ⟨?_, ?_, ?_⟩
  · intro calls v m
    refine ⟨?_, ?_⟩
    · intro c1 reg1 h
      exact ⟨by simp [registerStep, h], fun c s hc => Register_keeps h c s hc⟩
    · intro p h
      simp [registerStep, h]
  · intro calls more c s hc
    have : registerAll stdError (calls ++ more) =
        registerAll (registerAll stdError calls) more := by
      simp [registerAll, List.foldl_append]
    rw [this]
    exact registerAll_keeps more _ c s hc
  · intro calls c s hc
    exact registerAll_keeps calls stdError c s hc

/-! ### `FromError` and `Code.Err` -/

/-- C16: code recovery round trip.  `FromError(c.Err()) == c` for every code
`c`, `NoError` included. -/
theorem FromError_Err (c : Code) : FromError c.Err = c := by
  by_cases h : c = NoError
  · subst h
    simp [Code.Err, FromError]
  · simp [Code.Err, h, FromError, errorsAsErrCoder, error.ErrCoder, codeError.ErrCode]

theorem FromError_ne_NoError_of_no_coder (e : error)
    (h : (e.chain.filterMap error.ErrCoder).head? = none) : FromError (some e) ≠ NoError := by
  rw [FromError_eq_classify_aux]
  simp only [classify, h]
  split_ifs <;> decide

/-- C17, the claim as stated fails: an error value of a type with an
`ErrCode()` method that reports `NoError` is not nil, and `FromError` gives
`NoError` for it. -/
theorem FromError_NoError_of_non_nil :
    FromError (some (error.leaf 0 "no error" (some NoError))) = NoError ∧
    (some (error.leaf 0 "no error" (some NoError)) : Option error) ≠ none := by
  decide

/-- C17, amended: `FromError(err) == NoError` exactly when `err` is nil or the
outermost `ErrCoder` of the wrap chain of `err` reports `NoError`.  So
`FromError(nil) == NoError`, and no error without an `ErrCoder` in its chain
and no error made by `Code.Err` gives `NoError`. -/
theorem FromError_eq_NoError_iff :
    (∀ err : Option error, FromError err = NoError ↔
      (err = none ∨
        ∃ e, err = some e ∧ (e.chain.filterMap error.ErrCoder).head? = some NoError)) ∧
    (∀ e : error, (e.chain.filterMap error.ErrCoder).head? = none →
      FromError (some e) ≠ NoError) ∧
    (∀ c : Code, FromError c.Err = NoError ↔ c.Err = none) := by
  refine ⟨?_, FromError_ne_NoError_of_no_coder, ?_⟩
  · intro err
    cases err with
    | none => simp [FromError]
    | some e =>
      cases h : (e.chain.filterMap error.ErrCoder).head? with
      | none =>
        constructor
        · intro hf
          exact absurd hf (FromError_ne_NoError_of_no_coder e h)
        · intro hr
          rcases hr with hr | ⟨e1, he1, hh⟩
          · cases hr
          · cases he1
            rw [h] at hh
            cases hh
      | some c =>
        have hc : FromError (some e) = c := by
          rw [FromError_eq_classify_aux]
          simp only [classify, h]
        rw [hc]
        constructor
        · intro hf
          exact Or.inr ⟨e, rfl, by rw [h, hf]⟩
        · intro hr
          rcases hr with hr | ⟨e1, he1, hh⟩
          · cases hr
          · cases he1
            rw [h] at hh
            exact Option.some.inj hh
  · intro c
    by_cases h : c = NoError
    · subst h
      simp [Code.Err, FromError]
    · simp [Code.Err, h, FromError, errorsAsErrCoder, error.ErrCoder, codeError.ErrCode]

/-! ### The pre-defined codes -/

theorem stdError_lookup_isSome (c : Code) :
    (stdError.lookup c).isSome = true ↔ c ∈ predefined := by
  by_cases h : c ∈ predefined
  · simp only [h, iff_true]
    simp only [predefined, List.mem_cons, List.mem_singleton, List.not_mem_nil, or_false] at h
    rcases h with h | h | h | h | h | h | h | h | h <;> (subst h; decide)
  · simp only [h, iff_false]
    simp only [predefined, List.mem_cons, List.mem_singleton, List.not_mem_nil, or_false,
      not_or] at h
    obtain ⟨h1, h2, h3, h4, h5, h6, h7, h8, h9⟩ := h
    simp [stdError, Registry.set, Registry.empty, h1, h2, h3, h4, h5, h6, h7, h8, h9]

/-- C18: the nine pre-defined codes are pairwise distinct, each lies in the
reserved interval from -32768 to -32000, the initial registry has a
description for exactly these nine, and on the initial registry `Register`
returns, with any message, for every other value. -/
theorem predefined_codes_spec :
    predefined.Nodup ∧ predefined.length = 9 ∧
    (∀ c ∈ predefined, -32768 ≤ c.val ∧ c.val ≤ -32000) ∧
    (∀ c : Code, (stdError.lookup c).isSome = true ↔ c ∈ predefined) ∧
    (∀ (v : Int) (m : String), (⟨v⟩ : Code) ∉ predefined →
      ∃ reg1, Register stdError v m = Except.ok (⟨v⟩, reg1) ∧ reg1.lookup ⟨v⟩ = some m) := by
  refine ⟨by decide, rfl, by decide, stdError_lookup_isSome, ?_⟩
  intro v m hv
  have hnone : stdError.lookup ⟨v⟩ = none := by
    have := (stdError_lookup_isSome ⟨v⟩).not.2 hv
    simpa using this
  exact ⟨stdError.set ⟨v⟩ m, by simp [Register, hnone], Registry.lookup_set_self _ _ _⟩

end code

namespace handler

theorem accepts_eq (v : Value) : accepts v = shapeOK v := by
  cases v with
  | nil => rfl
  | other n => rfl
  | func t =>
    obtain ⟨params, variadic, results⟩ := t
    rcases params with _ | ⟨p, _ | ⟨q, _ | ⟨r, ps⟩⟩⟩ <;>
      rcases results with _ | ⟨x, _ | ⟨y, _ | ⟨z, rs⟩⟩⟩ <;>
      simp [accepts, newHandler, shapeOK]
    all_goals (split_ifs <;> simp_all <;> aesop)

/-- C11: a value is accepted exactly when it is a function with one or two
parameters, the first being `context.Context`, and one or two results where,
if there are two, the second and not the first is `error`.  The functions
`(ctx) -> error`, `(ctx, *Request) -> (T, error)`, `(ctx) -> (T, error)`,
`(ctx, S) -> error` for a slice or variadic `S`, and `(ctx) -> T` are
accepted (`T` other than `error` where an error follows it).  Rejected are
nil, values that are not functions, functions without parameters or with
three, functions whose first parameter is not the context, functions with no
or three results, `(ctx) -> (int, bool)` and `(ctx) -> (error, T)`.  Every row
of the table of `TestNew` comes out as the test expects. -/
theorem newHandler_accepts_spec :
    (∀ v : Value, accepts v = true ↔ shapeOK v = true) ∧
    (∀ (T S : GoType) (variadic : Bool), T ≠ GoType.Error →
      accepts (Value.func ⟨[GoType.Context], false, [GoType.Error]⟩) = true ∧
      accepts (Value.func ⟨[GoType.Context, GoType.Request], false, [T, GoType.Error]⟩) = true ∧
      accepts (Value.func ⟨[GoType.Context], false, [T, GoType.Error]⟩) = true ∧
      accepts (Value.func ⟨[GoType.Context, S], variadic, [GoType.Error]⟩) = true ∧
      accepts (Value.func ⟨[GoType.Context], false, [T]⟩) = true) ∧
    (accepts Value.nil = false ∧
      (∀ n, accepts (Value.other n) = false) ∧
      (∀ b rs, accepts (Value.func ⟨[], b, rs⟩) = false) ∧
      (∀ p q r b rs, accepts (Value.func ⟨[p, q, r], b, rs⟩) = false) ∧
      (∀ p ps b rs, p ≠ GoType.Context → accepts (Value.func ⟨p :: ps, b, rs⟩) = false) ∧
      (∀ ps b, accepts (Value.func ⟨ps, b, []⟩) = false) ∧
      (∀ ps b x y z, accepts (Value.func ⟨ps, b, [x, y, z]⟩) = false) ∧
      accepts (Value.func ⟨[GoType.Context], false, [tInt, tBool]⟩) = false ∧
      (∀ T, accepts (Value.func ⟨[GoType.Context], false, [GoType.Error, T]⟩) = false)) ∧
    (∀ row ∈ TestNew, accepts row.1 = !row.2) := by
  refine ⟨?_, ?_, ⟨rfl, fun _ => rfl, ?_, ?_, ?_, ?_, ?_, by decide, ?_⟩, by decide⟩
  · intro v
    rw [accepts_eq]
  · intro T S variadic hne
    simp [accepts_eq, shapeOK, hne]
  · intro b rs
    simp [accepts_eq, shapeOK]
  · intro p q r b rs
    simp [accepts_eq, shapeOK]
  · intro p ps b rs hp
    simp [accepts_eq, shapeOK, hp]
  · intro ps b
    simp [accepts_eq, shapeOK]
  · intro ps b x y z
    simp [accepts_eq, shapeOK]
  · intro T
    simp [accepts_eq, shapeOK]

end handler
